import Mathlib

/-!
Verification of the field-extraction and reconciliation pipeline of
`main.py` (PDF → JSON extractor).  The Python source is shallowly
embedded: the regular-expression dialect actually used by the source
(literals, character classes, bounded/unbounded class repetition with
greedy or lazy preference, alternation, optional parts, capture groups
and the end anchor) is embedded as an executable backtracking matcher
with Python `re.search` semantics (leftmost start position, pattern
order for alternation, longest-first for greedy and shortest-first for
lazy repetition), and every field pattern of `extract_agreement_data`
is translated literally.  `merge_jsons` is embedded over a JSON value
type, and the missing tabular reconciler is modelled from the spec.
-/

namespace APJson

/-! ### Character classes

`isWS` is Python's `\s` on the ASCII range (the documents handled by the
source are ASCII); `isWordChar` is Python's `\w` on the ASCII range. -/

def isWS (c : Char) : Bool :=
  c = ' ' || c = '\t' || c = '\n' || c = '\r' || c = '\x0b' || c = '\x0c'

def isWordChar (c : Char) : Bool := c.isAlphanum || c = '_'

/-- Horizontal whitespace, the class `[ \t]` of the second `re.sub`. -/
def isHT (c : Char) : Bool := c = ' ' || c = '\t'

/-! ### Regular-expression syntax

Exactly the constructs appearing in the source's patterns.  Repetition
(`+`, `*`, `{m}`, `{m,n}`) only ever applies to a single character
class in the source, so `rep` is over a class predicate; `hi = none`
means unbounded. -/

inductive RE where
  | lit (s : List Char) (ci : Bool)
  | cls (p : Char → Bool)
  | rep (p : Char → Bool) (lo : Nat) (hi : Option Nat) (greedy : Bool)
  | seq (a b : RE)
  | alt (a b : RE)
  | opt (a : RE) (greedy : Bool)
  | group (n : Nat) (a : RE)
  | eol

abbrev Groups := List (Nat × List Char)

/-- Character comparison, case-insensitive when `ci` is set (Python `re.I`). -/
def ciEq (ci : Bool) (a b : Char) : Bool :=
  if ci then a.toLower = b.toLower else a = b

/-- Match a literal run at the head of the input, returning the rest. -/
def litMatch (ci : Bool) : List Char → List Char → Option (List Char)
  | [], cs => some cs
  | _ :: _, [] => none
  | p :: ps, c :: cs => if ciEq ci p c then litMatch ci ps cs else none

/-- Length of the maximal run of class-`p` characters at the head. -/
def runLen (p : Char → Bool) : List Char → Nat
  | [] => 0
  | c :: cs => if p c then runLen p cs + 1 else 0

/-- First success over a list of repetition counts. -/
def firstSome (f : Nat → Option Groups) : List Nat → Option Groups
  | [] => none
  | n :: ns => (f n).orElse (fun _ => firstSome f ns)

/-- Candidate repetition counts `lo..m`, longest first when greedy,
shortest first when lazy — Python's backtracking preference. -/
def repCands (lo m : Nat) (greedy : Bool) : List Nat :=
  let asc := (List.range (m + 1 - lo)).map (· + lo)
  if greedy then asc.reverse else asc

/-- The backtracking matcher in continuation-passing style.  `k` receives
the remaining input and the capture groups recorded so far; failure of
the continuation backtracks into earlier choice points exactly as
Python's engine does. -/
def matchRE : RE → List Char → Groups → (List Char → Groups → Option Groups) → Option Groups
  | .lit s ci, cs, g, k =>
    match litMatch ci s cs with
    | some rest => k rest g
    | none => none
  | .cls p, cs, g, k =>
    match cs with
    | [] => none
    | c :: rest => if p c then k rest g else none
  | .rep p lo hi greedy, cs, g, k =>
    let m := min (runLen p cs) (hi.getD (runLen p cs))
    firstSome (fun n => k (cs.drop n) g) (repCands lo m greedy)
  | .seq a b, cs, g, k => matchRE a cs g (fun cs' g' => matchRE b cs' g' k)
  | .alt a b, cs, g, k => (matchRE a cs g k).orElse (fun _ => matchRE b cs g k)
  | .opt a greedy, cs, g, k =>
    if greedy then (matchRE a cs g k).orElse (fun _ => k cs g)
    else (k cs g).orElse (fun _ => matchRE a cs g k)
  | .group n a, cs, g, k =>
    matchRE a cs g (fun cs' g' => k cs' ((n, cs.take (cs.length - cs'.length)) :: g'))
  | .eol, cs, g, k => if cs.isEmpty || cs = ['\n'] then k cs g else none

/-- `re.search`: try a match at every start position, leftmost first
(position `len` included, via the `[]` base case). -/
def searchAux (r : RE) : List Char → Option Groups
  | [] => matchRE r [] [] (fun _ g => some g)
  | c :: rest =>
    (matchRE r (c :: rest) [] (fun _ g => some g)).orElse (fun _ => searchAux r rest)

/-- Content of capture group `n` of a successful match. -/
def groupVal (g : Groups) (n : Nat) : List Char :=
  match g.find? (fun p => p.1 == n) with
  | some p => p.2
  | none => []

/-- Python `str.strip()` (whitespace at both ends). -/
def stripChars (cs : List Char) : List Char :=
  ((cs.dropWhile isWS).reverse.dropWhile isWS).reverse

/-- `safe_search` of the source: `m.group(1).strip()` on a match, `None`
otherwise. -/
def safe_search (r : RE) (cs : List Char) : Option (List Char) :=
  (searchAux r cs).map (fun g => stripChars (groupVal g 1))

/-! ### The field patterns of `extract_agreement_data`

Each definition is the literal translation of one pattern string of the
source; all are compiled with `re.I` except `company_name` (whose only
flag, `re.M`, is irrelevant since the pattern has no anchors), so
literals are case-insensitive and classes such as `[A-Z0-9\-\./]` also
accept lowercase letters. -/

def colonOrWS (c : Char) : Bool := c = ':' || isWS c

def contractCls (c : Char) : Bool := c.isAlpha || c.isDigit || c = '-' || c = '.' || c = '/'

def digitC (c : Char) : Bool := c.isDigit

def digitComma (c : Char) : Bool := c.isDigit || c = ','

def anyC (_ : Char) : Bool := true

def notNL (c : Char) : Bool := !(c = '\n')

def nameCls (c : Char) : Bool := c.isAlpha || c = ' ' || c = '&' || c = '-'

def acctCls (c : Char) : Bool := c.isDigit || c = '-' || isWS c

def alnumCls (c : Char) : Bool := c.isAlpha || c.isDigit

def companyCls (c : Char) : Bool := c.isUpper || c.isDigit || c = ' ' || c = '&'

def upperC (c : Char) : Bool := c.isUpper

/-- Case-insensitive literal (patterns compiled with `re.I`). -/
def lit (s : String) : RE := .lit s.toList true

/-- Case-sensitive literal. -/
def litCS (s : String) : RE := .lit s.toList false

def plus (p : Char → Bool) : RE := .rep p 1 none true

def plusLazy (p : Char → Bool) : RE := .rep p 1 none false

def star (p : Char → Bool) : RE := .rep p 0 none true

def reps (p : Char → Bool) (lo hi : Nat) : RE := .rep p lo (some hi) true

def seqs : List RE → RE
  | [] => .lit [] false
  | [r] => r
  | r :: rs => .seq r (seqs rs)

/-- `Contract No[:\s]*([A-Z0-9\-\./]+)` with `re.I`. -/
def contractPat : RE := seqs [lit "Contract No", star colonOrWS, .group 1 (plus contractCls)]

def isoDatePat : RE := seqs [reps digitC 4 4, lit "-", reps digitC 2 2, lit "-", reps digitC 2 2]

def slashDatePat : RE := seqs [reps digitC 1 2, lit "/", reps digitC 1 2, lit "/", reps digitC 2 4]

/-- `Date[:\s]*([0-9]{4}-[0-9]{2}-[0-9]{2}|[0-9]{1,2}/[0-9]{1,2}/[0-9]{2,4})` with `re.I`. -/
def datePat : RE := seqs [lit "Date", star colonOrWS, .group 1 (.alt isoDatePat slashDatePat)]

/-- `SELLER\s+([\s\S]+?)\s+CONSIGNEE` with `re.I`. -/
def sellerPat : RE := seqs [lit "SELLER", plus isWS, .group 1 (plusLazy anyC), plus isWS, lit "CONSIGNEE"]

/-- `CONSIGNEE\s+([\s\S]+?)\s+NOTIFY PARTY` with `re.I`. -/
def consigneePat : RE :=
  seqs [lit "CONSIGNEE", plus isWS, .group 1 (plusLazy anyC), plus isWS, lit "NOTIFY PARTY"]

/-- `NOTIFY PARTY\s+([\s\S]+?)\s+Product` with `re.I`. -/
def notifyPat1 : RE :=
  seqs [lit "NOTIFY PARTY", plus isWS, .group 1 (plusLazy anyC), plus isWS, lit "Product"]

/-- `NOTIFY PARTY\s+([\s\S]+)$` with `re.I`. -/
def notifyPat2 : RE := seqs [lit "NOTIFY PARTY", plus isWS, .group 1 (plus anyC), .eol]

/-- `[0-9,]+\s*bales|[0-9,]+`, group 2 of the product pattern. -/
def qtyAlt : RE := .alt (seqs [plus digitComma, star isWS, lit "bales"]) (plus digitComma)

/-- `[\d,]+\s*USD\/bale|[\d,]+\s*USD\/\w+|[\d,]+\s*USD`, group 3 of the product pattern. -/
def priceAlt : RE :=
  .alt (seqs [plus digitComma, star isWS, lit "USD/bale"])
    (.alt (seqs [plus digitComma, star isWS, lit "USD/", plus isWordChar])
      (seqs [plus digitComma, star isWS, lit "USD"]))

/-- The combined four-group product pattern of the source. -/
def productPat : RE :=
  seqs [.group 1 (plusLazy nameCls), plus isWS, .group 2 qtyAlt, plus isWS, .group 3 priceAlt,
    plus isWS, .group 4 (seqs [plus digitComma, star isWS, lit "USD"])]

/-- `LABEL[:\s]*([^\n]+)` with `re.I`, the shape shared by the
rest-of-line fields (Website, Email, Address, GST, Packing, Loading
Port, Destination Port, Shipment, Documents, Payment Terms). -/
def lineRestPat (label : String) : RE := seqs [lit label, star colonOrWS, .group 1 (plus notNL)]

/-- `([A-Z][A-Z0-9 &]*PVT LTD)`, case-sensitive. -/
def companyNamePat : RE := .group 1 (seqs [.cls upperC, star companyCls, litCS "PVT LTD"])

/-- `GSTIN([0-9A-Z]+)` with `re.I`, the GST fallback pattern. -/
def gstinPat : RE := .seq (lit "GSTIN") (.group 1 (plus alnumCls))

/-- `Seller(?:’|')?s Bank[:\s]*([^\n]+)` with `re.I`. -/
def sellerBankPat : RE :=
  seqs [lit "Seller", .opt (.alt (litCS "’") (litCS "'")) true, lit "s Bank", star colonOrWS,
    .group 1 (plus notNL)]

/-- `Account No\.?:\s*([0-9\-\s]+)` with `re.I`. -/
def accountPat : RE :=
  seqs [lit "Account No", .opt (litCS ".") true, lit ":", star isWS, .group 1 (plus acctCls)]

/-! ### Normalization

`txt = re.sub(r"\r", "\n", text)` then `txt = re.sub(r"[ \t]+", " ", txt)`:
every carriage return becomes a newline, then every maximal run of
horizontal whitespace becomes a single space. -/

def cr2nl (c : Char) : Char := if c = '\r' then '\n' else c

/-- Replace each maximal `[ \t]+` run by a single space; `inRun` records
whether the current position continues a run whose space was already
emitted. -/
def collapseGo : List Char → Bool → List Char
  | [], _ => []
  | c :: cs, inRun =>
    if isHT c then (if inRun then collapseGo cs true else ' ' :: collapseGo cs true)
    else c :: collapseGo cs false

def collapseWS (cs : List Char) : List Char := collapseGo cs false

def normalizeTxt (cs : List Char) : List Char := collapseWS (cs.map cr2nl)

/-! ### The extraction result -/

/-- Python `a or b` on two optional strings: `a` when it is a non-empty
string, otherwise `b` (which may itself be `None` or empty). -/
def pyOrStr (a b : Option (List Char)) : Option (List Char) :=
  match a with
  | some s => if s.isEmpty then b else some s
  | none => b

def splitCommaAux : List Char → List Char → List (List Char)
  | [], acc => [acc.reverse]
  | c :: cs, acc =>
    if c = ',' then acc.reverse :: splitCommaAux cs [] else splitCommaAux cs (c :: acc)

/-- Python `str.split(",")`. -/
def splitComma (cs : List Char) : List (List Char) := splitCommaAux cs []

/-- The nested dictionary built by `extract_agreement_data`, flattened
to one record; `none` is the JSON `null` absence marker. -/
structure AgreementData where
  contract_no : Option String
  date : Option String
  website : Option String
  email : Option String
  company_name : Option String
  address : Option String
  gst : Option String
  seller : Option String
  consignee : Option String
  notify_party : Option String
  product_name : Option String
  product_quantity : Option String
  product_price : Option String
  product_amount : Option String
  packing : Option String
  loading_port : Option String
  destination_port : Option String
  shipment_date : Option String
  seller_bank : Option String
  account_no : Option String
  documents : List String
  payment_terms : Option String
deriving DecidableEq, Repr

def safeS (r : RE) (txt : List Char) : Option String :=
  (safe_search r txt).map String.mk

/-- The product group: all four fields from one match of `productPat`,
or all four `None`. -/
def prodFields (txt : List Char) : Option String × Option String × Option String × Option String :=
  match searchAux productPat txt with
  | some g =>
    (some (String.mk (stripChars (groupVal g 1))), some (String.mk (stripChars (groupVal g 2))),
      some (String.mk (stripChars (groupVal g 3))), some (String.mk (stripChars (groupVal g 4))))
  | none => (none, none, none, none)

/-- `[d.strip() for d in documents_raw.split(",")] if documents_raw else []`:
the guard is Python truthiness, so an empty `documents_raw` also gives `[]`. -/
def documentsOf (txt : List Char) : List String :=
  match safe_search (lineRestPat "Documents") txt with
  | some raw =>
    if raw.isEmpty then [] else (splitComma raw).map (fun d => String.mk (stripChars d))
  | none => []

/-- The body of `extract_agreement_data` after the emptiness check:
every field of the result dictionary, evaluated on the already
normalized text. -/
def recognizeFields (txt : List Char) : AgreementData :=
  { contract_no := safeS contractPat txt
    date := safeS datePat txt
    website := safeS (lineRestPat "Website") txt
    email := safeS (lineRestPat "Email") txt
    company_name := safeS companyNamePat txt
    address := safeS (lineRestPat "Address") txt
    gst := (pyOrStr (safe_search (lineRestPat "GST") txt) (safe_search gstinPat txt)).map String.mk
    seller := safeS sellerPat txt
    consignee := safeS consigneePat txt
    notify_party :=
      (pyOrStr (safe_search notifyPat1 txt) (safe_search notifyPat2 txt)).map String.mk
    product_name := (prodFields txt).1
    product_quantity := (prodFields txt).2.1
    product_price := (prodFields txt).2.2.1
    product_amount := (prodFields txt).2.2.2
    packing := safeS (lineRestPat "Packing") txt
    loading_port := safeS (lineRestPat "Loading Port") txt
    destination_port := safeS (lineRestPat "Destination Port") txt
    shipment_date := safeS (lineRestPat "Shipment") txt
    seller_bank := safeS sellerBankPat txt
    account_no := safeS accountPat txt
    documents := documentsOf txt
    payment_terms := safeS (lineRestPat "Payment Terms") txt }

/-! ### Error taxonomy and the two pipeline stages -/

inductive ExtractErr where
  | documentOpenError (msg : String)
  | emptyTextError
deriving DecidableEq, Repr

/-- `extract_agreement_data`: `raise ValueError(...)` when the joined
text is falsy (the empty string), otherwise normalize and recognize. -/
def extract_agreement_data (text : String) : Except ExtractErr AgreementData :=
  if text = "" then .error .emptyTextError
  else .ok (recognizeFields (normalizeTxt text.toList))

/-- Python `sep.join(l)`. -/
def joinList (sep : String) : List String → String
  | [] => ""
  | [x] => x
  | x :: xs => x ++ sep ++ joinList sep xs

/-- `"\n".join([p.extract_text() or "" for p in reader.pages])`: a page
yielding no text (`None` or `""`) contributes the empty string. -/
def joinPages (pages : List (Option String)) : String :=
  joinList "\n" (pages.map (fun p => p.getD ""))

/-- `extract_text_from_pdf`: the `PdfReader` outcome is supplied as an
oracle value — `Except.error e` models the constructor raising `e`, on
which the source raises `RuntimeError("Failed to open PDF: " + e)`,
embedded as `documentOpenError`. -/
def extract_text_from_pdf (opened : Except String (List (Option String))) :
    Except ExtractErr String :=
  match opened with
  | .error e => .error (.documentOpenError ("Failed to open PDF: " ++ e))
  | .ok pages => .ok (joinPages pages)

/-- The whole single-document pipeline of the JSON API. -/
def extractPipeline (opened : Except String (List (Option String))) :
    Except ExtractErr AgreementData :=
  match extract_text_from_pdf opened with
  | .error e => .error e
  | .ok t => extract_agreement_data t

end APJson

deriving instance DecidableEq for Except

namespace APJson

/-! ### `merge_jsons`

The deep merge is generic Python code over nested dictionaries, so it
is embedded over a JSON value type; dictionaries are association lists
in insertion order (keys of a Python dict are pairwise distinct, which
is the `wfVal` predicate below). -/

inductive JVal where
  | vnull
  | vstr (s : String)
  | vlist (l : List String)
  | vobj (o : List (String × JVal))

/-- Python truthiness of the JSON values in play: `None`, `""`, `[]`
and `{}` are falsy. -/
def truthy : JVal → Bool
  | .vnull => false
  | .vstr s => !(s = "")
  | .vlist l => !l.isEmpty
  | .vobj o => !o.isEmpty

/-- `dict.get(key)`: `None` when the key is absent. -/
def objGet (o : List (String × JVal)) (k : String) : Option JVal :=
  (o.find? (fun p => p.1 == k)).map Prod.snd

mutual

/-- One entry of the merge: the nested-dict branch recurses, any other
shape is `json1[key] or json2.get(key)` (with `None` for a key absent
from both operands of `or`). -/
def mergeEntry (v : JVal) (ov2 : Option JVal) : JVal :=
  match v, ov2 with
  | .vobj o1, some (.vobj o2) => .vobj (merge_jsons o1 o2)
  | v, ov2 => if truthy v then v else ov2.getD .vnull

/-- `merge_jsons`: iterate the keys of `json1` only. -/
def merge_jsons : List (String × JVal) → List (String × JVal) → List (String × JVal)
  | [], _ => []
  | (k, v) :: rest, j2 => (k, mergeEntry v (objGet j2 k)) :: merge_jsons rest j2

end

/-- Pairwise-distinct keys at every nesting level: the invariant every
Python dict satisfies by construction. -/
def wfVal : JVal → Bool
  | .vobj [] => true
  | .vobj ((k, v) :: rest) => rest.all (fun p => !(p.1 == k)) && wfVal v && wfVal (.vobj rest)
  | _ => true

def wfObj (o : List (String × JVal)) : Bool := wfVal (.vobj o)

/-! ### Match-matrix reconciliation (tabular pipeline) -/

abbrev FlatMap := List (String × String)

def lookupD (m : FlatMap) (k : String) : String :=
  ((m.find? (fun p => p.1 == k)).map Prod.snd).getD ""

def addKey (acc : List String) (k : String) : List String :=
  if acc.contains k then acc else acc ++ [k]

/-- Column set: union of the keys of all documents, in document order,
the first document's own key order primary. -/
def unionKeys (docs : List FlatMap) : List String :=
  docs.foldl (fun acc d => d.foldl (fun a p => addKey a p.1) acc) []

/-- Per-column indicator: 1 iff both values are non-empty and equal. -/
def matchIndicator (d1 d2 : FlatMap) (c : String) : Nat :=
  if !(lookupD d1 c == "") && lookupD d1 c == lookupD d2 c then 1 else 0

/-- Modelled from the spec: the match-matrix reconciler
(`reconcile_match`) belongs to the tabular/CSV variant of the program,
which is not part of `src/`; §4.4(b) of the spec defines it.  Fewer
than two documents give verdict "no comparison" and no row; otherwise
exactly the first two documents are compared over the union of columns,
verdict "successful match" iff every indicator is 1. -/
def reconRow (docs : List FlatMap) : List (String × Nat) :=
  (unionKeys docs).map (fun c => (c, matchIndicator (docs.getD 0 []) (docs.getD 1 []) c))

def reconcile_match (docs : List FlatMap) : Option (List (String × Nat)) × String :=
  if docs.length < 2 then (none, "no comparison")
  else
    (some (reconRow docs),
      if (reconRow docs).all (fun p => p.2 == 1) then "successful match"
      else "unsuccessful match")

/-! ### Lemmas about `merge_jsons` -/

theorem objGet_nil (k : String) : objGet [] k = none := rfl

theorem objGet_cons (k' : String) (v : JVal) (rest : List (String × JVal)) (k : String) :
    objGet ((k', v) :: rest) k = if k' = k then some v else objGet rest k := by
  simp only [objGet, List.find?]
  by_cases h : k' = k
  · subst h; simp
  · have hb : (k' == k) = false := by simpa using h
    simp [hb, h, objGet]

theorem merge_jsons_nil (j2 : List (String × JVal)) : merge_jsons [] j2 = [] := rfl

theorem merge_jsons_cons (k : String) (v : JVal) (rest j2 : List (String × JVal)) :
    merge_jsons ((k, v) :: rest) j2 = (k, mergeEntry v (objGet j2 k)) :: merge_jsons rest j2 :=
  rfl

/-- The value hung on each key of the merged object. -/
theorem objGet_merge (j1 j2 : List (String × JVal)) (k : String) :
    objGet (merge_jsons j1 j2) k = (objGet j1 k).map (fun v => mergeEntry v (objGet j2 k)) := by
  induction j1 with
  | nil => rfl
  | cons p rest ih =>
    obtain ⟨k', v⟩ := p
    rw [merge_jsons_cons, objGet_cons, objGet_cons]
    by_cases h : k' = k
    · subst h; simp
    · simp [h, ih]

/-- When either side of a key is not a nested object, `mergeEntry` is
`json1[key] or json2.get(key)`. -/
theorem mergeEntry_default (v : JVal) (ov2 : Option JVal)
    (h : ∀ o1 o2, ¬(v = .vobj o1 ∧ ov2 = some (.vobj o2))) :
    mergeEntry v ov2 = if truthy v then v else ov2.getD .vnull := by
  cases v with
  | vobj o1 =>
    cases ov2 with
    | none => rfl
    | some w =>
      cases w with
      | vobj o2 => exact absurd ⟨rfl, rfl⟩ (h o1 o2)
      | vnull => rfl
      | vstr s => rfl
      | vlist l => rfl
  | vnull => cases ov2 <;> rfl
  | vstr s => cases ov2 <;> rfl
  | vlist l => cases ov2 <;> rfl

theorem mergeEntry_obj (o1 o2 : List (String × JVal)) :
    mergeEntry (.vobj o1) (some (.vobj o2)) = .vobj (merge_jsons o1 o2) := rfl

/-- Keys found in a well-formed object are found at their stored value,
and that value is well-formed. -/
theorem wfObj_mem (o : List (String × JVal)) (h : wfObj o = true) :
    ∀ k v, (k, v) ∈ o → objGet o k = some v ∧ wfVal v = true := by
  induction o with
  | nil => intro k v hm; cases hm
  | cons p rest ih =>
    obtain ⟨k', v'⟩ := p
    intro k v hm
    have h' : rest.all (fun p => !(p.1 == k')) = true ∧ wfVal v' = true ∧ wfObj rest = true := by
      simp only [wfObj, wfVal, Bool.and_eq_true] at h
      exact ⟨h.1.1, h.1.2, h.2⟩
    rcases List.mem_cons.mp hm with heq | hmem
    · have hk : k = k' := congrArg Prod.fst heq
      have hv : v = v' := congrArg Prod.snd heq
      subst hk; subst hv
      refine ⟨?_, h'.2.1⟩
      rw [objGet_cons, if_pos rfl]
    · have hne : k ≠ k' := by
        have hx := List.all_eq_true.mp h'.1 _ hmem
        simpa using hx
      have hrec := ih h'.2.2 k v hmem
      have hkk : ¬(k' = k) := fun hh => hne hh.symm
      rw [objGet_cons, if_neg hkk]
      exact hrec

/-- Monotone core of idempotence: merging `j1` against any `j2` that
already holds every entry of `j1` (with well-formed values) returns
`j1` unchanged. -/
theorem merge_self_aux :
    ∀ n j1 j2, sizeOf j1 ≤ n →
      (∀ k v, (k, v) ∈ j1 → objGet j2 k = some v ∧ wfVal v = true) →
      merge_jsons j1 j2 = j1 := by
  intro n
  induction n with
  | zero =>
    intro j1 j2 hs h
    cases j1 with
    | nil => rfl
    | cons p rest =>
      exfalso
      rw [List.cons.sizeOf_spec] at hs
      omega
  | succ n ih =>
    intro j1 j2 hs h
    cases j1 with
    | nil => rfl
    | cons p rest =>
      obtain ⟨k, v⟩ := p
      have hsz : sizeOf rest ≤ n ∧ sizeOf v ≤ n := by
        rw [List.cons.sizeOf_spec, Prod.mk.sizeOf_spec] at hs
        omega
      have hhead := h k v (List.mem_cons_self _ _)
      have htail : merge_jsons rest j2 = rest :=
        ih rest j2 hsz.1 (fun k' v' hm => h k' v' (List.mem_cons_of_mem _ hm))
      rw [merge_jsons_cons, htail]
      have hval : mergeEntry v (objGet j2 k) = v := by
        rw [hhead.1]
        cases v with
        | vobj o1 =>
          rw [mergeEntry_obj]
          have ho1 : sizeOf o1 ≤ n := by
            have hv := hsz.2
            rw [JVal.vobj.sizeOf_spec] at hv
            omega
          have hmm := ih o1 o1 ho1 (fun k' v' hm => wfObj_mem o1 hhead.2 k' v' hm)
          rw [hmm]
        | vnull => rfl
        | vstr s =>
          rw [mergeEntry_default _ _ (by intro o1 o2 hc; exact JVal.noConfusion hc.1)]
          split <;> rfl
        | vlist l =>
          rw [mergeEntry_default _ _ (by intro o1 o2 hc; exact JVal.noConfusion hc.1)]
          split <;> rfl
      rw [hval]

/-! ### Claims C2, C4 and C10: the deep merge -/

/-- C2 counterexample: a key present only in the left input does NOT
always pass through unchanged — a falsy left value (here the empty
string) with no right entry is replaced by the null absence marker. -/
theorem C2_counterexample :
    merge_jsons [("a", JVal.vstr "")] [] = [("a", JVal.vnull)]
    ∧ JVal.vnull ≠ JVal.vstr "" :=
  ⟨rfl, fun h => JVal.noConfusion h⟩

/-- C2 (amended): for every pair of nested mappings, a leaf key of the
left input is assigned the left value when truthy and otherwise the
right input's value (the null marker when the right input lacks the
key — a key present only in the left input is therefore kept at its
value only when that value is truthy, and otherwise becomes null);
when both inputs hold a nested object under the key the merge recurses;
`merge \x7ba:"X"\x7d \x7ba:"Y"\x7d = \x7ba:"X"\x7d`, `merge \x7ba:""\x7d \x7ba:"Y"\x7d = \x7ba:"Y"\x7d`,
and a key absent from both is absent from the result. -/
theorem C2_merge_leaf_rule :
    (∀ j1 j2 k o1 o2, objGet j1 k = some (.vobj o1) → objGet j2 k = some (.vobj o2) →
      objGet (merge_jsons j1 j2) k = some (.vobj (merge_jsons o1 o2)))
    ∧ (∀ j1 j2 k v, objGet j1 k = some v →
      (∀ o1 o2, ¬(v = .vobj o1 ∧ objGet j2 k = some (.vobj o2))) →
      objGet (merge_jsons j1 j2) k =
        some (if truthy v then v else (objGet j2 k).getD .vnull))
    ∧ (∀ j1 j2 k v, objGet j1 k = some v → objGet j2 k = none →
      objGet (merge_jsons j1 j2) k = some (if truthy v then v else .vnull))
    ∧ (∀ j1 j2 k, objGet j1 k = none →
      objGet (merge_jsons j1 j2) k = none)
    ∧ merge_jsons [("a", JVal.vstr "X")] [("a", JVal.vstr "Y")] = [("a", JVal.vstr "X")]
    ∧ merge_jsons [("a", JVal.vstr "")] [("a", JVal.vstr "Y")] = [("a", JVal.vstr "Y")] := by
  refine ⟨?_, ?_, ?_, ?_, rfl, rfl⟩
  · intro j1 j2 k o1 o2 h1 h2
    rw [objGet_merge, h1, Option.map_some', h2, mergeEntry_obj]
  · intro j1 j2 k v h1 hno
    rw [objGet_merge, h1, Option.map_some', mergeEntry_default v _ hno]
  · intro j1 j2 k v h1 h2
    rw [objGet_merge, h1, Option.map_some',
      mergeEntry_default v _ (by intro o1 o2 hc; rw [h2] at hc; exact Option.noConfusion hc.2),
      h2]
    rfl
  · intro j1 j2 k h1
    rw [objGet_merge, h1, Option.map_none']

/-- Witness for C2 (amended) at concrete inputs: a truthy left leaf
wins, and a key present only in the left input with a falsy value
becomes null. -/
theorem C2_merge_leaf_rule_witness :
    objGet (merge_jsons [("a", JVal.vstr "X")] [("a", JVal.vstr "Y")]) "a" = some (JVal.vstr "X")
    ∧ objGet (merge_jsons [("b", JVal.vstr "")] []) "b" = some JVal.vnull := by
  constructor
  · have h := C2_merge_leaf_rule.2.1 [("a", JVal.vstr "X")] [("a", JVal.vstr "Y")] "a"
      (JVal.vstr "X") rfl
      (by intro o1 o2 hc; exact JVal.noConfusion hc.1)
    simpa using h
  · have h := C2_merge_leaf_rule.2.2.1 [("b", JVal.vstr "")] [] "b" (JVal.vstr "") rfl rfl
    simpa using h

/-- C4: deep merge is idempotent — `merge_jsons x x = x` for every
mapping `x` whose keys are pairwise distinct at every nesting level
(every Python dict satisfies this by construction). -/
theorem C4_merge_idempotent (x : List (String × JVal)) (h : wfObj x = true) :
    merge_jsons x x = x :=
  merge_self_aux (sizeOf x) x x (le_refl _) (wfObj_mem x h)

/-- Witness for C4 at a concrete nested mapping (truthy, falsy and
nested-object values included). -/
theorem C4_merge_idempotent_witness :
    merge_jsons
      [("header", JVal.vobj [("contract_no", JVal.vstr "ABC-123"), ("date", JVal.vnull)]),
        ("documents", JVal.vlist []), ("payment_terms", JVal.vstr "")]
      [("header", JVal.vobj [("contract_no", JVal.vstr "ABC-123"), ("date", JVal.vnull)]),
        ("documents", JVal.vlist []), ("payment_terms", JVal.vstr "")]
    = [("header", JVal.vobj [("contract_no", JVal.vstr "ABC-123"), ("date", JVal.vnull)]),
        ("documents", JVal.vlist []), ("payment_terms", JVal.vstr "")] :=
  C4_merge_idempotent _ (by simp [wfObj, wfVal])

/-- C10: the key set (with order and multiplicity) of the merged
mapping is exactly that of the left input; a key absent from the left
input never occurs in the result, whatever the right input holds. -/
theorem C10_merge_keys :
    (∀ j1 j2, (merge_jsons j1 j2).map Prod.fst = j1.map Prod.fst)
    ∧ (∀ j1 j2 k, objGet j1 k = none → objGet (merge_jsons j1 j2) k = none) := by
  constructor
  · intro j1 j2
    induction j1 with
    | nil => rfl
    | cons p rest ih =>
      obtain ⟨k, v⟩ := p
      rw [merge_jsons_cons]
      simpa using ih
  · intro j1 j2 k h1
    rw [objGet_merge, h1, Option.map_none']

/-- Witness for C10: a key present only in the right input is dropped. -/
theorem C10_merge_keys_witness :
    objGet (merge_jsons [("a", JVal.vstr "X")] [("b", JVal.vstr "Y")]) "b" = none :=
  C10_merge_keys.2 [("a", JVal.vstr "X")] [("b", JVal.vstr "Y")] "b" rfl

/-! ### Lemmas about normalization -/

/-- No two adjacent spaces. -/
def noTwoSpaces : List Char → Bool
  | a :: b :: t => !(a == ' ' && b == ' ') && noTwoSpaces (b :: t)
  | _ => true

def headIsSpace : List Char → Bool
  | [] => false
  | c :: _ => c == ' '

theorem collapseGo_cons (c : Char) (cs : List Char) (b : Bool) :
    collapseGo (c :: cs) b =
      if isHT c then (if b then collapseGo cs true else ' ' :: collapseGo cs true)
      else c :: collapseGo cs false := rfl

/-- The collapse step only emits input characters or single spaces. -/
theorem collapseGo_mem (cs : List Char) (b : Bool) :
    ∀ c, c ∈ collapseGo cs b → c ∈ cs ∨ c = ' ' := by
  induction cs generalizing b with
  | nil => intro c hc; cases hc
  | cons x cs ih =>
    intro c hc
    rw [collapseGo_cons] at hc
    by_cases hx : isHT x = true
    · rw [if_pos hx] at hc
      cases b with
      | true =>
        simp only [if_pos rfl] at hc
        rcases ih true c hc with h | h
        · exact Or.inl (List.mem_cons_of_mem _ h)
        · exact Or.inr h
      | false =>
        simp only [Bool.false_eq_true, if_neg] at hc
        rcases List.mem_cons.mp hc with h | h
        · exact Or.inr h
        · rcases ih true c h with h' | h'
          · exact Or.inl (List.mem_cons_of_mem _ h')
          · exact Or.inr h'
    · rw [if_neg hx] at hc
      rcases List.mem_cons.mp hc with h | h
      · exact Or.inl (h ▸ List.mem_cons_self _ _)
      · rcases ih false c h with h' | h'
        · exact Or.inl (List.mem_cons_of_mem _ h')
        · exact Or.inr h'

/-- The collapse step never emits a tab. -/
theorem collapseGo_no_tab (cs : List Char) (b : Bool) : '\t' ∉ collapseGo cs b := by
  induction cs generalizing b with
  | nil => intro hc; cases hc
  | cons x cs ih =>
    intro hc
    rw [collapseGo_cons] at hc
    by_cases hx : isHT x = true
    · rw [if_pos hx] at hc
      cases b with
      | true => exact ih true (by simpa using hc)
      | false =>
        simp only [Bool.false_eq_true, if_neg] at hc
        rcases List.mem_cons.mp hc with h | h
        · exact absurd h.symm (by decide)
        · exact ih true h
    · rw [if_neg hx] at hc
      rcases List.mem_cons.mp hc with h | h
      · rw [← h] at hx; exact hx (by decide)
      · exact ih false h

/-- Inside a run whose space was already emitted, the next emitted
character is never a space. -/
theorem collapseGo_head_true (cs : List Char) : headIsSpace (collapseGo cs true) = false := by
  induction cs with
  | nil => rfl
  | cons x cs ih =>
    rw [collapseGo_cons]
    by_cases hx : isHT x = true
    · rw [if_pos hx]; simpa using ih
    · rw [if_neg hx]
      have : ¬x = ' ' := fun h => hx (by rw [h]; rfl)
      simpa [headIsSpace] using this

theorem noTwoSpaces_cons (x : Char) (l : List Char) (h1 : noTwoSpaces l = true)
    (h2 : ¬x = ' ' ∨ headIsSpace l = false) : noTwoSpaces (x :: l) = true := by
  cases l with
  | nil => rfl
  | cons y t =>
    simp only [noTwoSpaces, Bool.and_eq_true, Bool.not_eq_true']
    refine ⟨?_, h1⟩
    rcases h2 with h | h
    · simp [h]
    · simp only [headIsSpace, beq_eq_false_iff_ne, ne_eq] at h
      simp [h]

/-- The collapse step never emits two adjacent spaces. -/
theorem collapseGo_noTwoSpaces (cs : List Char) (b : Bool) :
    noTwoSpaces (collapseGo cs b) = true := by
  induction cs generalizing b with
  | nil => rfl
  | cons x cs ih =>
    rw [collapseGo_cons]
    by_cases hx : isHT x = true
    · rw [if_pos hx]
      cases b with
      | true => simpa using ih true
      | false =>
        simp only [Bool.false_eq_true, if_neg]
        exact noTwoSpaces_cons _ _ (ih true) (Or.inr (collapseGo_head_true cs))
    · rw [if_neg hx]
      have : ¬x = ' ' := fun h => hx (by rw [h]; rfl)
      exact noTwoSpaces_cons _ _ (ih false) (Or.inl this)

/-- The collapse step touches nothing but horizontal whitespace. -/
theorem collapseGo_filter (cs : List Char) (b : Bool) :
    (collapseGo cs b).filter (fun c => !(isHT c)) = cs.filter (fun c => !(isHT c)) := by
  induction cs generalizing b with
  | nil => rfl
  | cons x cs ih =>
    rw [collapseGo_cons]
    by_cases hx : isHT x = true
    · rw [if_pos hx]
      have hsp : (fun c => !(isHT c)) ' ' = false := by decide
      cases b with
      | true => simp [List.filter, hx, ih true]
      | false =>
        simp only [Bool.false_eq_true, if_neg]
        simp [List.filter, hx, hsp, ih true]
    · rw [if_neg hx]
      have hx' : isHT x = false := by simpa using hx
      simp [List.filter, hx', ih false]

/-! ### Claim C5: normalization -/

/-- C5: the normalized text contains no carriage return (each became a
newline) and no tab, no two adjacent spaces remain (every horizontal
whitespace run collapsed to one space), no character outside horizontal
whitespace is touched beyond the CR-to-LF mapping, and the extraction
entry point applies this normalization exactly once, evaluating all
field recognition on the normalized text. -/
theorem C5_normalize_once_before_recognition :
    (∀ t : List Char, '\r' ∉ normalizeTxt t)
    ∧ (∀ t : List Char, '\t' ∉ normalizeTxt t)
    ∧ (∀ t : List Char, noTwoSpaces (normalizeTxt t) = true)
    ∧ (∀ t : List Char,
      (normalizeTxt t).filter (fun c => !(isHT c)) = (t.map cr2nl).filter (fun c => !(isHT c)))
    ∧ (∀ text : String, text ≠ "" →
      extract_agreement_data text = .ok (recognizeFields (normalizeTxt text.toList))) := by
  refine ⟨?_, ?_, ?_, ?_, ?_⟩
  · intro t hc
    rcases collapseGo_mem (t.map cr2nl) false '\r' hc with h | h
    · rcases List.mem_map.mp h with ⟨a, _, ha⟩
      by_cases hr : a = '\r'
      · rw [cr2nl, if_pos hr] at ha; exact Char.noConfusion (by exact ha) (by intro h'; cases h')
      · rw [cr2nl, if_neg hr] at ha; exact hr ha
    · cases h
  · intro t; exact collapseGo_no_tab (t.map cr2nl) false
  · intro t; exact collapseGo_noTwoSpaces (t.map cr2nl) false
  · intro t; exact collapseGo_filter (t.map cr2nl) false
  · intro text h
    rw [extract_agreement_data, if_neg h]

/-- Witness for C5 at a concrete raw text. -/
theorem C5_normalize_once_before_recognition_witness :
    extract_agreement_data "a \t b\rc" =
      .ok (recognizeFields (normalizeTxt "a \t b\rc".toList))
    ∧ normalizeTxt "a \t b\rc".toList = "a b\nc".toList :=
  ⟨C5_normalize_once_before_recognition.2.2.2.2 "a \t b\rc" (by decide), rfl⟩

/-! ### Claims C1 and C7: the pipeline's error behavior -/

theorem joinList_cons_cons (x y : String) (rest : List String) :
    joinList "\n" (x :: y :: rest) = x ++ "\n" ++ joinList "\n" (y :: rest) := rfl

/-- The joined text is empty iff there is at most one page and every
page yields no text: with two or more pages, the newline separators
make the join non-empty even when all pages are empty. -/
theorem joinPages_empty_iff (pages : List (Option String))
    (h : pages.all (fun p => p.getD "" = "") = true) :
    (joinPages pages = "" ↔ pages.length ≤ 1) := by
  cases pages with
  | nil => simp [joinPages, joinList]
  | cons p rest =>
    cases rest with
    | nil =>
      have hp : p.getD "" = "" := by simpa using List.all_eq_true.mp h p (by simp)
      simp [joinPages, joinList, hp]
    | cons q rest2 =>
      constructor
      · intro hj
        exfalso
        have hj' : (p.getD "") ++ "\n" ++ joinList "\n" ((q :: rest2).map (fun p => p.getD "")) = "" := hj
        have hlen := congrArg String.length hj'
        rw [String.length_append, String.length_append] at hlen
        have h1 : ("\n" : String).length = 1 := rfl
        have h0 : ("" : String).length = 0 := rfl
        rw [h1, h0] at hlen
        omega
      · intro hl
        simp at hl

/-- C1 (code bug): the failing input is a document of two pages, both
yielding no text — the joined text is the one-character string of a
newline separator, which is truthy, so `extract_agreement_data` does
NOT fail with the empty-text error and returns an (all-absent)
extraction result; the empty-text failure fires exactly when the
document has at most one page, all pages empty. -/
theorem C1_empty_pages_pipeline :
    joinPages [none, none] = "\n"
    ∧ extractPipeline (.ok [none, none]) = .ok (recognizeFields (normalizeTxt "\n".toList))
    ∧ extractPipeline (.ok [none, none]) ≠ .error .emptyTextError
    ∧ (∀ pages : List (Option String), pages.all (fun p => p.getD "" = "") = true →
      (extractPipeline (.ok pages) = .error .emptyTextError ↔ pages.length ≤ 1)) := by
  refine ⟨rfl, rfl, by decide, ?_⟩
  intro pages h
  simp only [extractPipeline, extract_text_from_pdf, extract_agreement_data]
  by_cases hj : joinPages pages = ""
  · rw [if_pos hj]
    simp [(joinPages_empty_iff pages h).mp hj]
  · rw [if_neg hj]
    constructor
    · intro hc; exact Except.noConfusion hc
    · intro hl; exact absurd ((joinPages_empty_iff pages h).mpr hl) hj

/-- Witness for C1's universal part: a one-page document with no text
does fail with the empty-text error. -/
theorem C1_empty_pages_pipeline_witness :
    extractPipeline (.ok [(none : Option String)]) = .error .emptyTextError :=
  (C1_empty_pages_pipeline.2.2.2 [none] (by decide)).mpr (by decide)

/-- C7: when opening the document fails with cause `e`, the pipeline
fails with `documentOpenError` carrying the cause inside the message
`Failed to open PDF: ...`, and never returns an extraction result. -/
theorem C7_document_open_error (opened : Except String (List (Option String))) (e : String)
    (h : opened = .error e) :
    extractPipeline opened = .error (.documentOpenError ("Failed to open PDF: " ++ e))
    ∧ ∀ r, extractPipeline opened ≠ .ok r := by
  subst h
  exact ⟨rfl, fun r hr => Except.noConfusion hr⟩

/-- Witness for C7 at a concrete opening failure. -/
theorem C7_document_open_error_witness :
    extractPipeline (.error "EOF marker not found") =
      .error (.documentOpenError "Failed to open PDF: EOF marker not found") :=
  (C7_document_open_error (.error "EOF marker not found") "EOF marker not found" rfl).1

/-! ### Claim C3: product-group atomicity -/

/-- C3: the four product fields are populated together from the four
capture groups of one match of the combined pattern, or none of them
is; the concrete partial product line (name and quantity, no currency
tokens) yields all four absent. -/
theorem C3_product_atomicity :
    (∀ txt : List Char,
      (∃ g, searchAux productPat txt = some g
        ∧ (recognizeFields txt).product_name = some (String.mk (stripChars (groupVal g 1)))
        ∧ (recognizeFields txt).product_quantity = some (String.mk (stripChars (groupVal g 2)))
        ∧ (recognizeFields txt).product_price = some (String.mk (stripChars (groupVal g 3)))
        ∧ (recognizeFields txt).product_amount = some (String.mk (stripChars (groupVal g 4))))
      ∨ ((recognizeFields txt).product_name = none
        ∧ (recognizeFields txt).product_quantity = none
        ∧ (recognizeFields txt).product_price = none
        ∧ (recognizeFields txt).product_amount = none))
    ∧ ((recognizeFields (normalizeTxt "Raw Cotton 1,200 bales".toList)).product_name = none
      ∧ (recognizeFields (normalizeTxt "Raw Cotton 1,200 bales".toList)).product_quantity = none
      ∧ (recognizeFields (normalizeTxt "Raw Cotton 1,200 bales".toList)).product_price = none
      ∧ (recognizeFields (normalizeTxt "Raw Cotton 1,200 bales".toList)).product_amount = none) := by
  constructor
  · intro txt
    cases hg : searchAux productPat txt with
    | some g =>
      left
      exact ⟨g, rfl, by simp [recognizeFields, prodFields, hg], by simp [recognizeFields, prodFields, hg],
        by simp [recognizeFields, prodFields, hg], by simp [recognizeFields, prodFields, hg]⟩
    | none =>
      right
      exact ⟨by simp [recognizeFields, prodFields, hg], by simp [recognizeFields, prodFields, hg],
        by simp [recognizeFields, prodFields, hg], by simp [recognizeFields, prodFields, hg]⟩
  · exact ⟨rfl, rfl, rfl, rfl⟩

/-! ### Claim C6: absence policy -/

theorem safe_search_none_iff (r : RE) (t : List Char) :
    safe_search r t = none ↔ searchAux r t = none := by
  rw [safe_search, Option.map_eq_none']

theorem safe_search_some (r : RE) (t : List Char) (g : Groups)
    (h : searchAux r t = some g) :
    safe_search r t = some (stripChars (groupVal g 1)) := by
  rw [safe_search, h, Option.map_some']

/-- C6 counterexample: on the (already normal) text "Account No.: \nX"
the account_no rule matches with capture "\n", whose strip is empty, and
the field is recorded as the empty string — not as the absence marker. -/
theorem C6_counterexample :
    (recognizeFields (normalizeTxt "Account No.: \nX".toList)).account_no = some ""
    ∧ (some "" : Option String) ≠ none := by
  exact ⟨rfl, fun h => Option.noConfusion h⟩

/-- C6 (amended): a field none of whose rules match is recorded as the
explicit absence marker, and a matching rule records the stripped
capture — which is the empty string, not the absence marker, when the
capture is entirely whitespace (as for the seller field here). -/
theorem C6_absence_policy :
    (∀ r t, searchAux r t = none → safe_search r t = none)
    ∧ (∀ r t g, searchAux r t = some g → safe_search r t = some (stripChars (groupVal g 1)))
    ∧ (recognizeFields (normalizeTxt "SELLER \n CONSIGNEE".toList)).seller = some "" := by
  refine ⟨?_, ?_, rfl⟩
  · intro r t h; exact (safe_search_none_iff r t).mpr h
  · intro r t g h; exact safe_search_some r t g h

/-- Witness for C6 (amended) at concrete inputs: a label that never
occurs gives the absence marker; a matching rest-of-line rule gives the
stripped capture. -/
theorem C6_absence_policy_witness :
    safe_search contractPat "no such label".toList = none
    ∧ safe_search (lineRestPat "Packing") "Packing: cartons".toList = some "cartons".toList :=
  ⟨C6_absence_policy.1 contractPat "no such label".toList rfl,
    C6_absence_policy.2.1 (lineRestPat "Packing") "Packing: cartons".toList
      [(1, "cartons".toList)] (by decide)⟩

/-! ### Claim C9: match-matrix reconciliation -/

/-- C9: with fewer than two flat maps the reconciler yields no row and
the verdict "no comparison"; with two or more it emits one indicator
per column computed from exactly the first two maps, and the verdict is
"successful match" precisely when every indicator is 1 (an indicator is
1 exactly when the first map's value is non-empty and equal to the
second map's value), and "unsuccessful match" otherwise. -/
theorem C9_reconcile_match :
    (∀ docs : List FlatMap, docs.length < 2 → reconcile_match docs = (none, "no comparison"))
    ∧ (∀ docs : List FlatMap, 2 ≤ docs.length →
      (reconcile_match docs).1 =
        some ((unionKeys docs).map
          (fun c => (c, matchIndicator (docs.getD 0 []) (docs.getD 1 []) c)))
      ∧ ((reconcile_match docs).2 = "successful match"
          ∨ (reconcile_match docs).2 = "unsuccessful match")
      ∧ ((reconcile_match docs).2 = "successful match" ↔
          ∀ c ∈ unionKeys docs, matchIndicator (docs.getD 0 []) (docs.getD 1 []) c = 1))
    ∧ (∀ d1 d2 : FlatMap, ∀ c, matchIndicator d1 d2 c = 1 ↔
        (lookupD d1 c ≠ "" ∧ lookupD d1 c = lookupD d2 c)) := by
  refine ⟨?_, ?_, ?_⟩
  · intro docs h
    rw [reconcile_match, if_pos h]
  · intro docs h
    have hlt : ¬docs.length < 2 := by omega
    have hiff : ((reconRow docs).all (fun p => p.2 == 1) = true) ↔
        (∀ c ∈ unionKeys docs, matchIndicator (docs.getD 0 []) (docs.getD 1 []) c = 1) := by
      rw [List.all_eq_true]
      constructor
      · intro hall c hc
        have hx := hall (c, matchIndicator (docs.getD 0 []) (docs.getD 1 []) c)
          (by rw [reconRow]; exact List.mem_map_of_mem _ hc)
        simpa using hx
      · intro hall p hp
        rw [reconRow] at hp
        rcases List.mem_map.mp hp with ⟨c, hc, rfl⟩
        simpa using hall c hc
    rw [reconcile_match, if_neg hlt]
    refine ⟨rfl, ?_, ?_⟩
    · by_cases hall : (reconRow docs).all (fun p => p.2 == 1) = true
      · left
        show (if (reconRow docs).all (fun p => p.2 == 1) = true then "successful match"
          else "unsuccessful match") = "successful match"
        rw [if_pos hall]
      · right
        show (if (reconRow docs).all (fun p => p.2 == 1) = true then "successful match"
          else "unsuccessful match") = "unsuccessful match"
        rw [if_neg hall]
    · by_cases hall : (reconRow docs).all (fun p => p.2 == 1) = true
      · constructor
        · intro _
          exact hiff.mp hall
        · intro _
          show (if (reconRow docs).all (fun p => p.2 == 1) = true then "successful match"
            else "unsuccessful match") = "successful match"
          rw [if_pos hall]
      · constructor
        · intro hc
          have hc' : (if (reconRow docs).all (fun p => p.2 == 1) = true then "successful match"
              else "unsuccessful match") = "successful match" := hc
          rw [if_neg hall] at hc'
          exact absurd hc' (by decide)
        · intro hc
          exact absurd (hiff.mpr hc) hall
  · intro d1 d2 c
    rw [matchIndicator]
    by_cases h1 : lookupD d1 c = ""
    · rw [if_neg (by simp [h1])]
      exact iff_of_false (by decide) (fun hc => hc.1 h1)
    · by_cases h2 : lookupD d1 c = lookupD d2 c
      · have hcond : (!(lookupD d1 c == "") && (lookupD d1 c == lookupD d2 c)) = true := by
          rw [Bool.and_eq_true, Bool.not_eq_true', beq_eq_false_iff_ne, beq_iff_eq]
          exact ⟨h1, h2⟩
        rw [if_pos hcond]
        exact iff_of_true rfl ⟨h1, h2⟩
      · rw [if_neg (by simp [h1, h2])]
        exact iff_of_false (by decide) (fun hc => h2 hc.2)

/-- Witness for C9: one document gives "no comparison"; two identical
one-field documents give a successful match. -/
theorem C9_reconcile_match_witness :
    reconcile_match [[("contract_no", "A1")]] = (none, "no comparison")
    ∧ (reconcile_match [[("contract_no", "A1")], [("contract_no", "A1")]]).2 =
        "successful match" := by
  constructor
  · exact C9_reconcile_match.1 [[("contract_no", "A1")]] (by decide)
  · exact (C9_reconcile_match.2.1 [[("contract_no", "A1")], [("contract_no", "A1")]]
      (by decide)).2.2.mpr (by decide)


/-! ### Declarative matching semantics

`Matches r cs cs' g g'` says: `r` can consume a prefix of `cs`, leaving
the suffix `cs'`, turning the recorded groups `g` into `g'`.  The
backtracking matcher is proved sound and complete for this relation,
which is what the claims about individual field patterns thread
through. -/

inductive Matches : RE → List Char → List Char → Groups → Groups → Prop where
  | lit (ci : Bool) (s cs cs' : List Char) (g : Groups)
      (h : litMatch ci s cs = some cs') :
      Matches (.lit s ci) cs cs' g g
  | cls (p : Char → Bool) (c : Char) (cs : List Char) (g : Groups) (h : p c = true) :
      Matches (.cls p) (c :: cs) cs g g
  | rep (p : Char → Bool) (lo : Nat) (hi : Option Nat) (gr : Bool)
      (taken cs' : List Char) (g : Groups)
      (hall : ∀ c ∈ taken, p c = true) (hlo : lo ≤ taken.length)
      (hhi : ∀ h ∈ hi, taken.length ≤ h) :
      Matches (.rep p lo hi gr) (taken ++ cs') cs' g g
  | seq (a b : RE) (cs cs1 cs' : List Char) (g g1 g' : Groups)
      (ha : Matches a cs cs1 g g1) (hb : Matches b cs1 cs' g1 g') :
      Matches (.seq a b) cs cs' g g'
  | altL (a b : RE) (cs cs' : List Char) (g g' : Groups)
      (ha : Matches a cs cs' g g') : Matches (.alt a b) cs cs' g g'
  | altR (a b : RE) (cs cs' : List Char) (g g' : Groups)
      (hb : Matches b cs cs' g g') : Matches (.alt a b) cs cs' g g'
  | optSome (a : RE) (gr : Bool) (cs cs' : List Char) (g g' : Groups)
      (ha : Matches a cs cs' g g') : Matches (.opt a gr) cs cs' g g'
  | optNone (a : RE) (gr : Bool) (cs : List Char) (g : Groups) :
      Matches (.opt a gr) cs cs g g
  | group (n : Nat) (a : RE) (cs cs' : List Char) (g g' : Groups)
      (ha : Matches a cs cs' g g') :
      Matches (.group n a) cs cs' g ((n, cs.take (cs.length - cs'.length)) :: g')
  | eol (cs : List Char) (g : Groups) (h : cs = [] ∨ cs = ['\n']) :
      Matches .eol cs cs g g

theorem orElse_eq_some {x : Option Groups} {f : Unit → Option Groups} {res : Groups}
    (h : (x.orElse f) = some res) : x = some res ∨ (x = none ∧ f () = some res) := by
  cases x with
  | some v => left; simpa [Option.orElse] using h
  | none => right; exact ⟨rfl, by simpa [Option.orElse] using h⟩

theorem isSome_orElse_left {x : Option Groups} {f : Unit → Option Groups}
    (h : x.isSome = true) : (x.orElse f).isSome = true := by
  cases x with
  | some v => rfl
  | none => cases h

theorem isSome_orElse_right {x : Option Groups} {f : Unit → Option Groups}
    (h : (f ()).isSome = true) : (x.orElse f).isSome = true := by
  cases x with
  | some v => rfl
  | none => simpa [Option.orElse] using h

theorem firstSome_eq_some {f : Nat → Option Groups} :
    ∀ {l : List Nat} {res : Groups}, firstSome f l = some res → ∃ n ∈ l, f n = some res := by
  intro l
  induction l with
  | nil => intro res h; cases h
  | cons n ns ih =>
    intro res h
    rcases orElse_eq_some h with h1 | ⟨_, h2⟩
    · exact ⟨n, List.mem_cons_self _ _, h1⟩
    · rcases ih h2 with ⟨n', hn', hf⟩
      exact ⟨n', List.mem_cons_of_mem _ hn', hf⟩

theorem firstSome_isSome_of {f : Nat → Option Groups} :
    ∀ {l : List Nat} {n : Nat}, n ∈ l → (f n).isSome = true →
      (firstSome f l).isSome = true := by
  intro l
  induction l with
  | nil => intro n hn; cases hn
  | cons m ms ih =>
    intro n hn hf
    rcases List.mem_cons.mp hn with rfl | hn'
    · exact isSome_orElse_left hf
    · exact isSome_orElse_right (ih hn' hf)

theorem mem_repCands {lo m n : Nat} {gr : Bool} :
    n ∈ repCands lo m gr ↔ (lo ≤ n ∧ n ≤ m) := by
  rw [repCands]
  have hbase : n ∈ (List.range (m + 1 - lo)).map (· + lo) ↔ (lo ≤ n ∧ n ≤ m) := by
    rw [List.mem_map]
    constructor
    · rintro ⟨i, hi, rfl⟩
      rw [List.mem_range] at hi
      omega
    · intro ⟨h1, h2⟩
      exact ⟨n - lo, by rw [List.mem_range]; omega, by omega⟩
  cases gr with
  | true => simpa [List.mem_reverse] using hbase
  | false => simpa using hbase

theorem runLen_le_length (p : Char → Bool) : ∀ cs : List Char, runLen p cs ≤ cs.length := by
  intro cs
  induction cs with
  | nil => exact Nat.le_refl 0
  | cons c cs ih =>
    rw [runLen]
    by_cases h : p c = true
    · rw [if_pos h]; simpa using ih
    · rw [if_neg h]; simp

theorem runLen_take (p : Char → Bool) :
    ∀ (cs : List Char) (n : Nat), n ≤ runLen p cs → ∀ c ∈ cs.take n, p c = true := by
  intro cs
  induction cs with
  | nil => intro n _ c hc; simp at hc
  | cons x cs ih =>
    intro n hn c hc
    rw [runLen] at hn
    by_cases hx : p x = true
    · rw [if_pos hx] at hn
      cases n with
      | zero => simp at hc
      | succ n' =>
        rw [List.take_succ_cons] at hc
        rcases List.mem_cons.mp hc with rfl | hc'
        · exact hx
        · exact ih n' (by omega) c hc'
    · rw [if_neg hx] at hn
      have : n = 0 := by omega
      subst this
      simp at hc

theorem runLen_append_ge (p : Char → Bool) :
    ∀ (taken cs' : List Char), (∀ c ∈ taken, p c = true) →
      taken.length ≤ runLen p (taken ++ cs') := by
  intro taken
  induction taken with
  | nil => intro cs' _; simp
  | cons x t ih =>
    intro cs' hall
    rw [List.cons_append, runLen, if_pos (hall x (List.mem_cons_self _ _))]
    have := ih cs' (fun c hc => hall c (List.mem_cons_of_mem _ hc))
    simpa using this


/-- Soundness: every success of the backtracking matcher factors
through a declarative match followed by the continuation. -/
theorem matchRE_sound (r : RE) :
    ∀ (cs : List Char) (g : Groups) (k : List Char → Groups → Option Groups) (res : Groups),
      matchRE r cs g k = some res →
      ∃ cs' g', Matches r cs cs' g g' ∧ k cs' g' = some res := by
  induction r with
  | lit s ci =>
    intro cs g k res h
    rw [matchRE] at h
    cases hlit : litMatch ci s cs with
    | some rest =>
      rw [hlit] at h
      exact ⟨rest, g, Matches.lit ci s cs rest g hlit, h⟩
    | none => rw [hlit] at h; cases h
  | cls p =>
    intro cs g k res h
    cases cs with
    | nil => rw [matchRE] at h; cases h
    | cons c rest =>
      rw [matchRE] at h
      by_cases hp : p c = true
      · rw [if_pos hp] at h
        exact ⟨rest, g, Matches.cls p c rest g hp, h⟩
      · rw [if_neg hp] at h; cases h
  | rep p lo hi gr =>
    intro cs g k res h
    simp only [matchRE] at h
    rcases firstSome_eq_some h with ⟨n, hn, hf⟩
    rw [mem_repCands] at hn
    have hrun : n ≤ runLen p cs := le_trans hn.2 (min_le_left _ _)
    have hlen : n ≤ cs.length := le_trans hrun (runLen_le_length p cs)
    have htl : (cs.take n).length = n := by rw [List.length_take]; omega
    have hhi : ∀ hb ∈ hi, (cs.take n).length ≤ hb := by
      intro hb hmem
      cases hi with
      | none => cases hmem
      | some hv =>
        have hbv : hv = hb := by simpa using hmem
        subst hbv
        have hnv : n ≤ hv := le_trans hn.2 (min_le_right _ _)
        omega
    have hm := Matches.rep p lo hi gr (cs.take n) (cs.drop n) g
      (runLen_take p cs n hrun) (by omega) hhi
    rw [List.take_append_drop] at hm
    exact ⟨cs.drop n, g, hm, hf⟩
  | seq a b iha ihb =>
    intro cs g k res h
    rw [matchRE] at h
    rcases iha cs g _ res h with ⟨cs1, g1, hma, hcont⟩
    rcases ihb cs1 g1 k res hcont with ⟨cs', g', hmb, hk⟩
    exact ⟨cs', g', Matches.seq a b cs cs1 cs' g g1 g' hma hmb, hk⟩
  | alt a b iha ihb =>
    intro cs g k res h
    rw [matchRE] at h
    rcases orElse_eq_some h with h1 | ⟨_, h2⟩
    · rcases iha cs g k res h1 with ⟨cs', g', hm, hk⟩
      exact ⟨cs', g', Matches.altL a b cs cs' g g' hm, hk⟩
    · rcases ihb cs g k res h2 with ⟨cs', g', hm, hk⟩
      exact ⟨cs', g', Matches.altR a b cs cs' g g' hm, hk⟩
  | opt a gr iha =>
    intro cs g k res h
    rw [matchRE] at h
    cases gr with
    | true =>
      rw [if_pos rfl] at h
      rcases orElse_eq_some h with h1 | ⟨_, h2⟩
      · rcases iha cs g k res h1 with ⟨cs', g', hm, hk⟩
        exact ⟨cs', g', Matches.optSome a true cs cs' g g' hm, hk⟩
      · exact ⟨cs, g, Matches.optNone a true cs g, h2⟩
    | false =>
      rw [if_neg (by simp)] at h
      rcases orElse_eq_some h with h1 | ⟨_, h2⟩
      · exact ⟨cs, g, Matches.optNone a false cs g, h1⟩
      · rcases iha cs g k res h2 with ⟨cs', g', hm, hk⟩
        exact ⟨cs', g', Matches.optSome a false cs cs' g g' hm, hk⟩
  | group n a iha =>
    intro cs g k res h
    rw [matchRE] at h
    rcases iha cs g _ res h with ⟨cs', g', hm, hk⟩
    exact ⟨cs', (n, cs.take (cs.length - cs'.length)) :: g',
      Matches.group n a cs cs' g g' hm, hk⟩
  | eol =>
    intro cs g k res h
    rw [matchRE] at h
    by_cases hc : (cs.isEmpty || cs = ['\n'] : Bool) = true
    · rw [if_pos hc] at h
      refine ⟨cs, g, Matches.eol cs g ?_, h⟩
      rcases Bool.or_eq_true_iff.mp hc with h1 | h2
      · left; simpa using h1
      · right; exact of_decide_eq_true h2
    · rw [if_neg hc] at h; cases h



/-- Completeness: when a declarative match reaches a point where the
continuation succeeds, the backtracking matcher succeeds (it may settle
on a different window, but it does succeed). -/
theorem matchRE_complete {r : RE} {cs cs' : List Char} {g g' : Groups}
    (hm : Matches r cs cs' g g') :
    ∀ k : List Char → Groups → Option Groups, (k cs' g').isSome = true →
      (matchRE r cs g k).isSome = true := by
  induction hm with
  | lit ci s cs0 cs1 g0 hlit =>
    intro k hk
    rw [matchRE, hlit]
    exact hk
  | cls p c cs0 g0 hp =>
    intro k hk
    rw [matchRE, if_pos hp]
    exact hk
  | rep p lo hi gr taken cs1 g0 hall hlo hhi =>
    intro k hk
    simp only [matchRE]
    have hrun : taken.length ≤ runLen p (taken ++ cs1) := runLen_append_ge p taken cs1 hall
    have hmin : taken.length ≤
        min (runLen p (taken ++ cs1)) (hi.getD (runLen p (taken ++ cs1))) := by
      cases hi with
      | none => simpa using hrun
      | some hv =>
        have hb := hhi hv rfl
        simp only [Option.getD_some]
        exact le_min hrun hb
    have hmem : taken.length ∈
        repCands lo (min (runLen p (taken ++ cs1)) (hi.getD (runLen p (taken ++ cs1)))) gr :=
      mem_repCands.mpr ⟨hlo, hmin⟩
    refine firstSome_isSome_of hmem ?_
    show (k ((taken ++ cs1).drop taken.length) g0).isSome = true
    rw [List.drop_left]
    exact hk
  | seq a b cs0 cs1 cs2 g0 g1 g2 hma hmb iha ihb =>
    intro k hk
    rw [matchRE]
    exact iha _ (ihb k hk)
  | altL a b cs0 cs1 g0 g1 hma iha =>
    intro k hk
    rw [matchRE]
    exact isSome_orElse_left (iha k hk)
  | altR a b cs0 cs1 g0 g1 hmb ihb =>
    intro k hk
    rw [matchRE]
    exact isSome_orElse_right (ihb k hk)
  | optSome a gr cs0 cs1 g0 g1 hma iha =>
    intro k hk
    rw [matchRE]
    cases gr with
    | true => rw [if_pos rfl]; exact isSome_orElse_left (iha k hk)
    | false => rw [if_neg (by simp)]; exact isSome_orElse_right (iha k hk)
  | optNone a gr cs0 g0 =>
    intro k hk
    rw [matchRE]
    cases gr with
    | true => rw [if_pos rfl]; exact isSome_orElse_right hk
    | false => rw [if_neg (by simp)]; exact isSome_orElse_left hk
  | group n a cs0 cs1 g0 g1 hma iha =>
    intro k hk
    rw [matchRE]
    exact iha _ hk
  | eol cs0 g0 hc =>
    intro k hk
    have hcond : (cs0.isEmpty || cs0 = ['\n'] : Bool) = true := by
      rcases hc with rfl | rfl <;> rfl
    rw [matchRE, if_pos hcond]
    exact hk



/-! ### Inversion lemmas for the declarative semantics -/

theorem Matches_seq_inv {a b : RE} {cs cs' : List Char} {g g' : Groups}
    (h : Matches (.seq a b) cs cs' g g') :
    ∃ cs1 g1, Matches a cs cs1 g g1 ∧ Matches b cs1 cs' g1 g' := by
  cases h
  case seq cs1 g1 ha hb => exact ⟨cs1, g1, ha, hb⟩

theorem Matches_lit_inv {s : List Char} {ci : Bool} {cs cs' : List Char} {g g' : Groups}
    (h : Matches (.lit s ci) cs cs' g g') :
    litMatch ci s cs = some cs' ∧ g' = g := by
  cases h
  case lit hlit => exact ⟨hlit, rfl⟩

theorem Matches_rep_inv {p : Char → Bool} {lo : Nat} {hi : Option Nat} {gr : Bool}
    {cs cs' : List Char} {g g' : Groups}
    (h : Matches (.rep p lo hi gr) cs cs' g g') :
    ∃ taken, cs = taken ++ cs' ∧ (∀ c ∈ taken, p c = true) ∧ lo ≤ taken.length
      ∧ (∀ hb ∈ hi, taken.length ≤ hb) ∧ g' = g := by
  cases h
  case rep taken hall hlo hhi => exact ⟨taken, rfl, hall, hlo, hhi, rfl⟩

theorem Matches_group_inv {n : Nat} {a : RE} {cs cs' : List Char} {g g' : Groups}
    (h : Matches (.group n a) cs cs' g g') :
    ∃ g1, Matches a cs cs' g g1 ∧ g' = (n, cs.take (cs.length - cs'.length)) :: g1 := by
  cases h
  case group g1 ha => exact ⟨g1, ha, rfl⟩

theorem Matches_eol_inv {cs cs' : List Char} {g g' : Groups}
    (h : Matches .eol cs cs' g g') :
    cs' = cs ∧ g' = g ∧ (cs = [] ∨ cs = ['\n']) := by
  cases h
  case eol hc => exact ⟨rfl, rfl, hc⟩

/-! ### Search-level lemmas -/

theorem searchAux_some_exists {r : RE} :
    ∀ {txt : List Char} {g : Groups}, searchAux r txt = some g →
      ∃ i, matchRE r (txt.drop i) [] (fun _ g => some g) = some g := by
  intro txt
  induction txt with
  | nil =>
    intro g h
    rw [searchAux] at h
    exact ⟨0, h⟩
  | cons c rest ih =>
    intro g h
    rw [searchAux] at h
    rcases orElse_eq_some h with h1 | ⟨_, h2⟩
    · exact ⟨0, h1⟩
    · rcases ih h2 with ⟨i, hm⟩
      exact ⟨i + 1, hm⟩

theorem searchAux_isSome_of {r : RE} :
    ∀ {txt : List Char} (i : Nat),
      (matchRE r (txt.drop i) [] (fun _ g => some g)).isSome = true →
      (searchAux r txt).isSome = true := by
  intro txt
  induction txt with
  | nil =>
    intro i h
    rw [searchAux]
    simpa [List.drop_nil] using h
  | cons c rest ih =>
    intro i h
    rw [searchAux]
    cases i with
    | zero => exact isSome_orElse_left h
    | succ i₂ => exact isSome_orElse_right (ih i₂ h)

/-! ### The notify_party characterization (claim C8) -/

/-- Case-insensitive equality of character runs. -/
def lowerEq (a b : List Char) : Prop := a.map Char.toLower = b.map Char.toLower

theorem litMatch_true_decomp : ∀ {s cs cs' : List Char},
    litMatch true s cs = some cs' → ∃ m, cs = m ++ cs' ∧ lowerEq m s := by
  intro s
  induction s with
  | nil =>
    intro cs cs' h
    rw [litMatch] at h
    injection h with h'
    exact ⟨[], by rw [h']; rfl, rfl⟩
  | cons p ps ih =>
    intro cs cs' h
    cases cs with
    | nil => rw [litMatch] at h; cases h
    | cons c ct =>
      rw [litMatch] at h
      by_cases hc : ciEq true p c = true
      · rw [if_pos hc] at h
        rcases ih h with ⟨m, hm, hle⟩
        refine ⟨c :: m, by rw [hm]; rfl, ?_⟩
        have hcp : p.toLower = c.toLower := by
          rw [ciEq, if_pos rfl] at hc
          exact of_decide_eq_true hc
        have hcl : c.toLower = p.toLower := hcp.symm
        show (c :: m).map Char.toLower = (p :: ps).map Char.toLower
        rw [List.map_cons, List.map_cons, hcl, hle]
      · rw [if_neg hc] at h; cases h

/-- The decisive window: a position where "NOTIFY PARTY" matches
case-insensitively, immediately followed by a whitespace character and
at least one further character. -/
def notifyWindow (txt : List Char) : Prop :=
  ∃ i c rest, litMatch true ("NOTIFY PARTY".toList) (txt.drop i) = some (c :: rest)
    ∧ isWS c = true ∧ rest ≠ []

theorem notifyPat2_matches_window {cs cs2 : List Char} {g g2 : Groups}
    (hm : Matches notifyPat2 cs cs2 g g2) :
    ∃ c rest, litMatch true ("NOTIFY PARTY".toList) cs = some (c :: rest)
      ∧ isWS c = true ∧ rest ≠ [] := by
  have hm' : Matches (.seq (.lit ("NOTIFY PARTY".toList) true)
      (.seq (.rep isWS 1 none true) (.seq (.group 1 (.rep anyC 1 none true)) .eol)))
      cs cs2 g g2 := hm
  rcases Matches_seq_inv hm' with ⟨cs1, g1, hlitp, hrest⟩
  rcases Matches_lit_inv hlitp with ⟨hlitEq, rfl⟩
  rcases Matches_seq_inv hrest with ⟨csA, gA, hws, hrest2⟩
  rcases Matches_rep_inv hws with ⟨taken1, heq1, hall1, hlo1, _, rfl⟩
  rcases Matches_seq_inv hrest2 with ⟨cs3, g3, hgr, heol⟩
  rcases Matches_group_inv hgr with ⟨g4, hrep2, rfl⟩
  rcases Matches_rep_inv hrep2 with ⟨taken2, heq2, hall2, hlo2, _, rfl⟩
  cases taken1 with
  | nil => simp at hlo1
  | cons c t1 =>
    refine ⟨c, t1 ++ csA, ?_, hall1 c (List.mem_cons_self _ _), ?_⟩
    · rw [hlitEq, heq1]
      rfl
    · subst heq2
      intro hemp
      rcases List.append_eq_nil.mp hemp with ⟨ht1, h2⟩
      rcases List.append_eq_nil.mp h2 with ⟨ht2, _⟩
      rw [ht2] at hlo2
      simp at hlo2

theorem searchAux_notifyPat2_isSome_iff (txt : List Char) :
    (searchAux notifyPat2 txt).isSome = true ↔ notifyWindow txt := by
  constructor
  · intro h
    rcases Option.isSome_iff_exists.mp h with ⟨g, hg⟩
    rcases searchAux_some_exists hg with ⟨i, hmRE⟩
    rcases matchRE_sound notifyPat2 _ _ _ _ hmRE with ⟨cs', g', hm, _⟩
    rcases notifyPat2_matches_window hm with ⟨c, rest, hlit, hws, hne⟩
    exact ⟨i, c, rest, hlit, hws, hne⟩
  · rintro ⟨i, c, rest, hlit, hws, hne⟩
    have hinner : Matches (.rep anyC 1 none true) (rest ++ []) [] ([] : Groups) [] :=
      Matches.rep anyC 1 none true rest [] []
        (fun c h => rfl) (by rwa [Nat.one_le_iff_ne_zero, Ne, List.length_eq_zero])
        (fun hb hmem => by cases hmem)
    rw [List.append_nil] at hinner
    have hgroup := Matches.group 1 (.rep anyC 1 none true) rest [] [] [] hinner
    have heol := Matches.eol [] ((1, rest.take (rest.length - ([] : List Char).length)) :: []) (Or.inl rfl)
    have hseq3 := Matches.seq (.group 1 (.rep anyC 1 none true)) .eol rest [] [] [] _ _ hgroup heol
    have hws' : Matches (.rep isWS 1 none true) ([c] ++ rest) rest ([] : Groups) [] :=
      Matches.rep isWS 1 none true [c] rest []
        (fun x hx => by rcases List.mem_singleton.mp hx with rfl; exact hws)
        (by simp) (fun hb hmem => by cases hmem)
    have hseq2 := Matches.seq (.rep isWS 1 none true) _ ([c] ++ rest) rest [] [] _ _ hws' hseq3
    have hlitm : Matches (.lit ("NOTIFY PARTY".toList) true) (txt.drop i) ([c] ++ rest)
        ([] : Groups) [] := Matches.lit true _ _ _ [] hlit
    have hm : Matches notifyPat2 (txt.drop i) [] [] _ :=
      Matches.seq _ _ _ _ _ _ _ _ hlitm hseq2
    have hcomp := matchRE_complete hm (fun _ g => some g) rfl
    exact searchAux_isSome_of i hcomp



theorem notifyPat1_matches_window {cs cs2 : List Char} {g g2 : Groups}
    (hm : Matches notifyPat1 cs cs2 g g2) :
    ∃ c rest, litMatch true ("NOTIFY PARTY".toList) cs = some (c :: rest)
      ∧ isWS c = true ∧ rest ≠ [] := by
  have hm' : Matches (.seq (.lit ("NOTIFY PARTY".toList) true)
      (.seq (.rep isWS 1 none true)
        (.seq (.group 1 (.rep anyC 1 none false))
          (.seq (.rep isWS 1 none true) (.lit ("Product".toList) true)))))
      cs cs2 g g2 := hm
  rcases Matches_seq_inv hm' with ⟨cs1, g1, hlitp, hrest⟩
  rcases Matches_lit_inv hlitp with ⟨hlitEq, rfl⟩
  rcases Matches_seq_inv hrest with ⟨csA, gA, hws, hrest2⟩
  rcases Matches_rep_inv hws with ⟨taken1, heq1, hall1, hlo1, _, rfl⟩
  rcases Matches_seq_inv hrest2 with ⟨cs3, g3, hgr, _⟩
  rcases Matches_group_inv hgr with ⟨g4, hrep2, rfl⟩
  rcases Matches_rep_inv hrep2 with ⟨taken2, heq2, hall2, hlo2, _, rfl⟩
  cases taken1 with
  | nil => simp at hlo1
  | cons c t1 =>
    refine ⟨c, t1 ++ csA, ?_, hall1 c (List.mem_cons_self _ _), ?_⟩
    · rw [hlitEq, heq1]
      rfl
    · subst heq2
      intro hemp
      rcases List.append_eq_nil.mp hemp with ⟨ht1, h2⟩
      rcases List.append_eq_nil.mp h2 with ⟨ht2, _⟩
      rw [ht2] at hlo2
      simp at hlo2

theorem pyOrStr_eq_none {a b : Option (List Char)} (h : pyOrStr a b = none) : b = none := by
  cases a with
  | none => exact h
  | some s =>
    rw [pyOrStr] at h
    by_cases hs : s.isEmpty = true
    · rw [if_pos hs] at h; exact h
    · rw [if_neg hs] at h; cases h

theorem pyOrStr_eq_some {a b : Option (List Char)} {v : List Char}
    (h : pyOrStr a b = some v) : (a = some v ∧ v ≠ []) ∨ b = some v := by
  cases a with
  | none => exact Or.inr h
  | some s =>
    rw [pyOrStr] at h
    by_cases hs : s.isEmpty = true
    · rw [if_pos hs] at h; exact Or.inr h
    · rw [if_neg hs] at h
      left
      refine ⟨h, ?_⟩
      injection h with h'
      subst h'
      simpa using hs

theorem p1_match_implies_p2 {txt : List Char}
    (h : (searchAux notifyPat1 txt).isSome = true) :
    (searchAux notifyPat2 txt).isSome = true := by
  rcases Option.isSome_iff_exists.mp h with ⟨g, hg⟩
  rcases searchAux_some_exists hg with ⟨i, hmRE⟩
  rcases matchRE_sound notifyPat1 _ _ _ _ hmRE with ⟨cs', g', hm, _⟩
  rcases notifyPat1_matches_window hm with ⟨c, rest, hlit, hws, hne⟩
  exact (searchAux_notifyPat2_isSome_iff txt).mpr ⟨i, c, rest, hlit, hws, hne⟩

theorem notify_party_eq (txt : List Char) :
    (recognizeFields txt).notify_party =
      (pyOrStr (safe_search notifyPat1 txt) (safe_search notifyPat2 txt)).map String.mk := rfl

/-- Absence characterization of notify_party: the field is absent
exactly when the text has no marker window. -/
theorem notify_none_iff_window (txt : List Char) :
    (recognizeFields txt).notify_party = none ↔ ¬notifyWindow txt := by
  rw [notify_party_eq, Option.map_eq_none']
  constructor
  · intro h hw
    have hb := pyOrStr_eq_none h
    have hsome : (searchAux notifyPat2 txt).isSome = true :=
      (searchAux_notifyPat2_isSome_iff txt).mpr hw
    have hnone : searchAux notifyPat2 txt = none := (safe_search_none_iff _ _).mp hb
    rw [hnone] at hsome
    cases hsome
  · intro hnw
    have hp2 : searchAux notifyPat2 txt = none := by
      cases hs : searchAux notifyPat2 txt with
      | none => rfl
      | some g =>
        exact absurd ((searchAux_notifyPat2_isSome_iff txt).mp (by rw [hs]; rfl)) hnw
    have hp1 : searchAux notifyPat1 txt = none := by
      cases hs : searchAux notifyPat1 txt with
      | none => rfl
      | some g =>
        have hx := @p1_match_implies_p2 txt (by rw [hs]; rfl)
        rw [hp2] at hx
        cases hx
    have ha : safe_search notifyPat1 txt = none := (safe_search_none_iff _ _).mpr hp1
    have hb : safe_search notifyPat2 txt = none := (safe_search_none_iff _ _).mpr hp2
    rw [ha, hb]
    rfl



theorem groupVal_singleton (n : Nat) (m : List Char) : groupVal [(n, m)] n = m := by
  simp [groupVal, List.find?]

/-- Full decomposition of a pattern-1 match: marker, whitespace,
captured middle, whitespace, "Product" marker, remainder; the capture
group holds exactly the middle. -/
theorem notifyPat1_matches_decomp {cs cs2 : List Char} {g2 : Groups}
    (hm : Matches notifyPat1 cs cs2 ([] : Groups) g2) :
    ∃ mk w mid w2 pr, cs = mk ++ (w ++ (mid ++ (w2 ++ (pr ++ cs2))))
      ∧ lowerEq mk ("NOTIFY PARTY".toList)
      ∧ (∀ c ∈ w, isWS c = true)
      ∧ (∀ c ∈ w2, isWS c = true)
      ∧ lowerEq pr ("Product".toList)
      ∧ g2 = [(1, mid)] := by
  have hm' : Matches (.seq (.lit ("NOTIFY PARTY".toList) true)
      (.seq (.rep isWS 1 none true)
        (.seq (.group 1 (.rep anyC 1 none false))
          (.seq (.rep isWS 1 none true) (.lit ("Product".toList) true)))))
      cs cs2 [] g2 := hm
  rcases Matches_seq_inv hm' with ⟨cs1, g1, hlitp, hrest⟩
  rcases Matches_lit_inv hlitp with ⟨hlitEq, hg1⟩
  rcases litMatch_true_decomp hlitEq with ⟨mk0, hcs, hmk⟩
  rcases Matches_seq_inv hrest with ⟨csA, gA, hws, hrest2⟩
  rcases Matches_rep_inv hws with ⟨w0, heqw, hallw, _, _, hgA⟩
  rcases Matches_seq_inv hrest2 with ⟨cs3, g3, hgr, hrest3⟩
  rcases Matches_group_inv hgr with ⟨g4, hrep2, hg3⟩
  rcases Matches_rep_inv hrep2 with ⟨mid0, heqm, _, _, _, hg4⟩
  rcases Matches_seq_inv hrest3 with ⟨cs4, g5, hws2, hlit2⟩
  rcases Matches_rep_inv hws2 with ⟨w20, heqw2, hallw2, _, _, hg5⟩
  rcases Matches_lit_inv hlit2 with ⟨hlitEq2, hg2⟩
  rcases litMatch_true_decomp hlitEq2 with ⟨pr0, hcs4, hpr⟩
  have hcap : csA.take (csA.length - cs3.length) = mid0 := by
    rw [heqm, List.length_append, Nat.add_sub_cancel, List.take_left]
  refine ⟨mk0, w0, mid0, w20, pr0, ?_, hmk, hallw, hallw2, hpr, ?_⟩
  · rw [hcs, heqw, heqm, heqw2, hcs4]
  · rw [hg2, hg5, hg3, hg4, hgA, hg1, hcap]

/-- Full decomposition of a pattern-2 match: marker, whitespace,
captured middle running to the end of the text (up to one trailing
newline). -/
theorem notifyPat2_matches_decomp {cs cs2 : List Char} {g2 : Groups}
    (hm : Matches notifyPat2 cs cs2 ([] : Groups) g2) :
    ∃ mk w mid, cs = mk ++ (w ++ (mid ++ cs2))
      ∧ lowerEq mk ("NOTIFY PARTY".toList)
      ∧ (∀ c ∈ w, isWS c = true) ∧ w ≠ [] ∧ mid ≠ []
      ∧ (cs2 = [] ∨ cs2 = ['\n'])
      ∧ g2 = [(1, mid)] := by
  have hm' : Matches (.seq (.lit ("NOTIFY PARTY".toList) true)
      (.seq (.rep isWS 1 none true) (.seq (.group 1 (.rep anyC 1 none true)) .eol)))
      cs cs2 [] g2 := hm
  rcases Matches_seq_inv hm' with ⟨cs1, g1, hlitp, hrest⟩
  rcases Matches_lit_inv hlitp with ⟨hlitEq, hg1⟩
  rcases litMatch_true_decomp hlitEq with ⟨mk0, hcs, hmk⟩
  rcases Matches_seq_inv hrest with ⟨csA, gA, hws, hrest2⟩
  rcases Matches_rep_inv hws with ⟨w0, heqw, hallw, hlow, _, hgA⟩
  rcases Matches_seq_inv hrest2 with ⟨cs3, g3, hgr, heol⟩
  rcases Matches_group_inv hgr with ⟨g4, hrep2, hg3⟩
  rcases Matches_rep_inv hrep2 with ⟨mid0, heqm, _, hlom, _, hg4⟩
  rcases Matches_eol_inv heol with ⟨hcs2, hg2, hor⟩
  have hcap : csA.take (csA.length - cs3.length) = mid0 := by
    rw [heqm, List.length_append, Nat.add_sub_cancel, List.take_left]
  have hwne : w0 ≠ [] := by
    intro hw0
    rw [hw0] at hlow
    simp at hlow
  have hmne : mid0 ≠ [] := by
    intro hm0
    rw [hm0] at hlom
    simp at hlom
  refine ⟨mk0, w0, mid0, ?_, hmk, hallw, hwne, hmne, ?_, ?_⟩
  · rw [hcs, heqw, heqm, hcs2]
  · rw [hcs2]; exact hor
  · rw [hg2, hg3, hg4, hgA, hg1, hcap]



/-- C8 counterexample: the text "NOTIFY PARTY" contains the marker yet
notify_party is absent; and on "NOTIFY PARTY \n Product" a "Product"
marker follows the "NOTIFY PARTY" marker, yet the field's value is
"Product" (from the to-end fallback after the between-markers candidate
stripped to blank), not the text between the two markers. -/
theorem C8_counterexample :
    (recognizeFields "NOTIFY PARTY".toList).notify_party = none
    ∧ (recognizeFields "NOTIFY PARTY \n Product".toList).notify_party = some "Product" :=
  ⟨rfl, rfl⟩

/-- C8 (amended): notify_party is absent exactly when no occurrence of
"NOTIFY PARTY" (case-insensitive) is immediately followed by a
whitespace character and at least one further character.  When present,
the value is a stripped capture of one of the two rules: either the
text lying between a "NOTIFY PARTY" marker (after intervening
whitespace) and a following whitespace-preceded "Product" marker, taken
only when it strips to a non-empty string, or else the stripped text
from after the marker's whitespace to the end of the text (up to one
trailing newline), which may also be empty. -/
theorem C8_notify_party_rule (txt : List Char) :
    ((recognizeFields txt).notify_party = none ↔ ¬notifyWindow txt)
    ∧ (∀ v, (recognizeFields txt).notify_party = some v →
      (∃ pre mk w mid w2 pr tail,
          txt = pre ++ (mk ++ (w ++ (mid ++ (w2 ++ (pr ++ tail)))))
          ∧ lowerEq mk ("NOTIFY PARTY".toList)
          ∧ (∀ c ∈ w, isWS c = true) ∧ (∀ c ∈ w2, isWS c = true)
          ∧ lowerEq pr ("Product".toList)
          ∧ v = String.mk (stripChars mid) ∧ v ≠ "")
      ∨ (∃ pre mk w mid tail,
          txt = pre ++ (mk ++ (w ++ (mid ++ tail)))
          ∧ lowerEq mk ("NOTIFY PARTY".toList)
          ∧ (∀ c ∈ w, isWS c = true) ∧ w ≠ [] ∧ mid ≠ []
          ∧ (tail = [] ∨ tail = ['\n'])
          ∧ v = String.mk (stripChars mid))) := by
  constructor
  · exact notify_none_iff_window txt
  · intro v hv
    rw [notify_party_eq] at hv
    rcases Option.map_eq_some'.mp hv with ⟨vl, hpy, hvv⟩
    rcases pyOrStr_eq_some hpy with ⟨h1, hne⟩ | h2
    · left
      rw [safe_search] at h1
      rcases Option.map_eq_some'.mp h1 with ⟨g, hsg, hstrip⟩
      rcases searchAux_some_exists hsg with ⟨i, hmRE⟩
      rcases matchRE_sound notifyPat1 _ _ _ _ hmRE with ⟨cs', g', hm, hk⟩
      have hg' : g' = g := by simpa using hk
      subst hg'
      rcases notifyPat1_matches_decomp hm with
        ⟨mk0, w0, mid0, w20, pr0, hdec, hmk, hw, hw2, hpr, hgv⟩
      refine ⟨txt.take i, mk0, w0, mid0, w20, pr0, cs', ?_, hmk, hw, hw2, hpr, ?_, ?_⟩
      · rw [← hdec]
        exact (List.take_append_drop i txt).symm
      · rw [← hvv, ← hstrip, hgv, groupVal_singleton]
      · rw [← hvv]
        intro hc
        apply hne
        have hd := congrArg String.data hc
        simpa using hd
    · right
      rw [safe_search] at h2
      rcases Option.map_eq_some'.mp h2 with ⟨g, hsg, hstrip⟩
      rcases searchAux_some_exists hsg with ⟨i, hmRE⟩
      rcases matchRE_sound notifyPat2 _ _ _ _ hmRE with ⟨cs', g', hm, hk⟩
      have hg' : g' = g := by simpa using hk
      subst hg'
      rcases notifyPat2_matches_decomp hm with
        ⟨mk0, w0, mid0, hdec, hmk, hw, hwne, hmne, htail, hgv⟩
      refine ⟨txt.take i, mk0, w0, mid0, cs', ?_, hmk, hw, hwne, hmne, htail, ?_⟩
      · rw [← hdec]
        exact (List.take_append_drop i txt).symm
      · rw [← hvv, ← hstrip, hgv, groupVal_singleton]

/-- Witness for C8 at a concrete text with no marker window. -/
theorem C8_notify_party_rule_witness :
    (recognizeFields "CONSIGNEE only".toList).notify_party = none
    ∧ ¬notifyWindow ("CONSIGNEE only".toList) :=
  ⟨rfl, (C8_notify_party_rule ("CONSIGNEE only".toList)).1.mp rfl⟩


end APJson
